import Mathlib

/-!
# Verification of the SEO-Engine-ai streaming extraction pipeline

This development shallowly embeds the core logic of `src/index.tsx`:
the streaming metadata demultiplexer (the per-chunk extraction loop of the
form submit handler), the placeholder image resolver, the readability and
SEO-score estimators, and the prompt compiler.  Texts are modelled as
`List Char`; JavaScript string primitives (`indexOf`, `substring`,
`includes`, `replace`, `trim`, regex removal) are given faithful
executable counterparts.  Asynchronous image-service calls are modelled
by an oracle `Nat → ImgOutcome` giving the outcome of each attempt.
-/

namespace SeoEngine

/-- JS `a.startsWith(t)` on character lists: `t` matches at the head of `l`. -/
def startsWith : List Char → List Char → Bool
  | _, [] => true
  | [], _ :: _ => false
  | c :: l, d :: t => c == d && startsWith l t

/-- Index of the first occurrence of `t` in `l` (`none` if absent).
JS `indexOf` yields `-1` for `none`; see `jsIndexOf`. -/
def idxOfSub (l t : List Char) : Option Nat :=
  match l with
  | [] => if startsWith [] t then some 0 else none
  | _ :: l' => if startsWith l t then some 0 else (idxOfSub l' t).map (· + 1)

/-- JS `l.includes(t)`. -/
def containsSub (l t : List Char) : Bool := (idxOfSub l t).isSome

/-- JS `l.indexOf(t)`: first index or `-1`. -/
def jsIndexOf (l t : List Char) : Int :=
  match idxOfSub l t with
  | some i => (i : Int)
  | none => -1

/-- `t` occurs nowhere in `l`. -/
def noOcc (l t : List Char) : Bool := (idxOfSub l t).isNone

/-- `t` occurs in `l` exactly at index `k` and nowhere else. -/
def uniqueOccB (l t : List Char) (k : Nat) : Bool :=
  (idxOfSub l t == some k) && noOcc (l.drop (k + 1)) t

/-- JS `l.substring(a, b)`: negative arguments clamp to `0`, arguments above
the length clamp to the length, and the two arguments are swapped when
`a > b`. -/
def jsSubstring (l : List Char) (a b : Int) : List Char :=
  let n : Int := l.length
  let a' := max 0 (min a n)
  let b' := max 0 (min b n)
  (l.take (max a' b').toNat).drop (min a' b').toNat

/-- JS one-argument `l.substring(a)`. -/
def jsSubstringFrom (l : List Char) (a : Int) : List Char :=
  jsSubstring l a l.length

/-- JS `l.replace(pat, '')` with a plain-string pattern: remove the first
occurrence of `pat`. -/
def replaceFirst (l pat : List Char) : List Char :=
  match idxOfSub l pat with
  | none => l
  | some i => l.take i ++ l.drop (i + pat.length)

/-- ASCII whitespace recognised by JS `trim`. -/
def isWsChar (c : Char) : Bool :=
  c = ' ' || c = '\n' || c = '\t' || c = '\r' || c = '\x0B' || c = '\x0C'

/-- JS `l.trim()`. -/
def jsTrim (l : List Char) : List Char :=
  ((l.dropWhile isWsChar).reverse.dropWhile isWsChar).reverse

/- ### Basic facts about `startsWith` -/

theorem startsWith_iff_exists {l t : List Char} :
    startsWith l t = true ↔ ∃ r, l = t ++ r := by
  induction t generalizing l with
  | nil => simp [startsWith]
  | cons d t ih =>
    cases l with
    | nil => simp [startsWith]
    | cons c l =>
      simp only [startsWith, Bool.and_eq_true, beq_iff_eq, ih, List.cons_append,
        List.cons.injEq]
      constructor
      · rintro ⟨rfl, r, rfl⟩; exact ⟨r, rfl, rfl⟩
      · rintro ⟨r, rfl, rfl⟩; exact ⟨rfl, r, rfl⟩

theorem length_le_of_startsWith {l t : List Char} (h : startsWith l t = true) :
    t.length ≤ l.length := by
  rcases startsWith_iff_exists.mp h with ⟨r, rfl⟩
  simp

theorem startsWith_append_self (t r : List Char) : startsWith (t ++ r) t = true :=
  startsWith_iff_exists.mpr ⟨r, rfl⟩

theorem startsWith_append_right {l t : List Char} (e : List Char)
    (h : startsWith l t = true) : startsWith (l ++ e) t = true := by
  rcases startsWith_iff_exists.mp h with ⟨r, rfl⟩
  exact startsWith_iff_exists.mpr ⟨r ++ e, by simp⟩

theorem startsWith_of_take {l t : List Char} {m : Nat}
    (h : startsWith (l.take m) t = true) : startsWith l t = true := by
  have := startsWith_append_right (l.drop m) h
  rwa [List.take_append_drop] at this

theorem startsWith_take_of {l t : List Char} {m : Nat}
    (h : startsWith l t = true) (hm : t.length ≤ m) :
    startsWith (l.take m) t = true := by
  rcases startsWith_iff_exists.mp h with ⟨r, rfl⟩
  refine startsWith_iff_exists.mpr ⟨r.take (m - t.length), ?_⟩
  rw [List.take_append_eq_append_take, List.take_of_length_le hm]

theorem startsWith_pat_append {l t u : List Char}
    (h : startsWith l (t ++ u) = true) : startsWith l t = true := by
  rcases startsWith_iff_exists.mp h with ⟨r, rfl⟩
  exact startsWith_iff_exists.mpr ⟨u ++ r, by simp⟩

theorem startsWith_nil_right (l : List Char) : startsWith l [] = true := by
  cases l <;> rfl

/- ### Characterisation of `idxOfSub` -/

theorem idxOfSub_some_iff {l t : List Char} {i : Nat} :
    idxOfSub l t = some i ↔
      (startsWith (l.drop i) t = true ∧ ∀ j, j < i → startsWith (l.drop j) t = false) := by
  induction l generalizing i with
  | nil =>
    simp only [idxOfSub, List.drop_nil]
    by_cases h : startsWith [] t = true
    · rw [if_pos h]
      constructor
      · rintro h'
        injection h' with hi
        subst hi
        exact ⟨h, fun j hj => absurd hj (by omega)⟩
      · rintro ⟨_, hall⟩
        rcases i with _ | i
        · rfl
        · have h0 := hall 0 (by omega)
          rw [h] at h0; cases h0
    · rw [if_neg h]
      constructor
      · rintro ⟨⟩
      · rintro ⟨h1, _⟩; exact absurd h1 h
  | cons c l ih =>
    simp only [idxOfSub]
    by_cases h : startsWith (c :: l) t = true
    · rw [if_pos h]
      constructor
      · rintro h'
        injection h' with hi
        subst hi
        exact ⟨by simpa using h, fun j hj => absurd hj (by omega)⟩
      · rintro ⟨h1, hall⟩
        rcases i with _ | i
        · rfl
        · have h0 := hall 0 (by omega)
          simp only [List.drop_zero] at h0
          rw [h] at h0; cases h0
    · rw [if_neg h]
      constructor
      · intro h'
        rcases hmap : idxOfSub l t with _ | j
        · rw [hmap] at h'; cases h'
        · rw [hmap] at h'
          simp only [Option.map_some'] at h'
          injection h' with hji
          have hj' := ih.mp hmap
          rcases i with _ | i
          · omega
          · have hji' : j = i := by omega
            subst hji'
            refine ⟨by simpa using hj'.1, ?_⟩
            intro k hk
            rcases k with _ | k
            · simpa using h
            · simpa using hj'.2 k (by omega)
      · rintro ⟨h1, hall⟩
        rcases i with _ | i
        · exact absurd (by simpa using h1) h
        · have hsome : idxOfSub l t = some i := by
            refine ih.mpr ⟨by simpa using h1, ?_⟩
            intro j hj
            have := hall (j + 1) (by omega)
            simpa using this
          rw [hsome]; rfl

theorem idxOfSub_none_iff {l t : List Char} :
    idxOfSub l t = none ↔ ∀ j, startsWith (l.drop j) t = false := by
  constructor
  · intro h j
    by_contra hj
    rw [Bool.not_eq_false] at hj
    -- there is an occurrence; the minimal one contradicts `none`
    have hex : ∃ k, startsWith (l.drop k) t = true := ⟨j, hj⟩
    have hmin := Nat.find_spec hex
    have : idxOfSub l t = some (Nat.find hex) := by
      refine idxOfSub_some_iff.mpr ⟨hmin, ?_⟩
      intro k hk
      have := Nat.find_min hex hk
      simpa using this
    rw [this] at h; cases h
  · intro hall
    cases h : idxOfSub l t with
    | none => rfl
    | some i =>
      have := (idxOfSub_some_iff.mp h).1
      rw [hall i] at this; cases this

theorem noOcc_iff {l t : List Char} :
    noOcc l t = true ↔ ∀ j, startsWith (l.drop j) t = false := by
  rw [noOcc, Option.isNone_iff_eq_none, idxOfSub_none_iff]

theorem uniqueOccB_iff {l t : List Char} {k : Nat} :
    uniqueOccB l t k = true ↔ ∀ i, (startsWith (l.drop i) t = true ↔ i = k) := by
  simp only [uniqueOccB, Bool.and_eq_true, beq_iff_eq, noOcc_iff]
  constructor
  · rintro ⟨hsome, hafter⟩ i
    have h1 := idxOfSub_some_iff.mp hsome
    constructor
    · intro hi
      by_contra hne
      rcases Nat.lt_or_ge i k with hlt | hge
      · rw [h1.2 i hlt] at hi; cases hi
      · have hgt : k < i := by omega
        have hthis := hafter (i - (k + 1))
        rw [List.drop_drop] at hthis
        have hi' : k + 1 + (i - (k + 1)) = i := by omega
        rw [hi'] at hthis
        rw [hthis] at hi; cases hi
    · rintro rfl; exact h1.1
  · intro hiff
    refine ⟨idxOfSub_some_iff.mpr ⟨(hiff k).mpr rfl, ?_⟩, ?_⟩
    · intro j hj
      by_contra hj'
      rw [Bool.not_eq_false] at hj'
      have := (hiff j).mp hj'
      omega
    · intro j
      rw [List.drop_drop]
      by_contra hj'
      rw [Bool.not_eq_false] at hj'
      have := (hiff (k + 1 + j)).mp hj'
      omega

/- ### Occurrences inside a prefix (`take`) of a longer text -/

theorem startsWith_take_iff {l t : List Char} {m i : Nat} (ht : t ≠ []) :
    startsWith ((l.take m).drop i) t = true ↔
      (startsWith (l.drop i) t = true ∧ i + t.length ≤ m) := by
  rw [List.drop_take]
  constructor
  · intro h
    have hlen := length_le_of_startsWith h
    have hmi : t.length ≤ m - i := le_trans hlen (by simp)
    have him : i ≤ m := by
      by_contra him
      have : m - i = 0 := by omega
      rw [this, List.take_zero] at h
      rcases t with _ | ⟨d, t⟩
      · exact ht rfl
      · cases h
    exact ⟨startsWith_of_take h, by omega⟩
  · rintro ⟨h, hm⟩
    exact startsWith_take_of h (by omega)

theorem idxOfSub_take_of_unique {l t : List Char} {k m : Nat} (ht : t ≠ [])
    (hu : uniqueOccB l t k = true) (hm : k + t.length ≤ m) :
    idxOfSub (l.take m) t = some k := by
  have hiff := uniqueOccB_iff.mp hu
  refine idxOfSub_some_iff.mpr ⟨?_, ?_⟩
  · exact (startsWith_take_iff ht).mpr ⟨(hiff k).mpr rfl, hm⟩
  · intro j hj
    by_contra hj'
    rw [Bool.not_eq_false] at hj'
    have := (hiff j).mp ((startsWith_take_iff ht).mp hj').1
    omega

theorem idxOfSub_take_none_of_unique {l t : List Char} {k m : Nat} (ht : t ≠ [])
    (hu : uniqueOccB l t k = true) (hm : m < k + t.length) :
    idxOfSub (l.take m) t = none := by
  have hiff := uniqueOccB_iff.mp hu
  refine idxOfSub_none_iff.mpr ?_
  intro j
  by_contra hj'
  rw [Bool.not_eq_false] at hj'
  have h := (startsWith_take_iff ht).mp hj'
  have := (hiff j).mp h.1
  omega

theorem idxOfSub_take_none_of_noOcc {l t : List Char} {m : Nat} (ht : t ≠ [])
    (hno : noOcc l t = true) : idxOfSub (l.take m) t = none := by
  have hall := noOcc_iff.mp hno
  refine idxOfSub_none_iff.mpr ?_
  intro j
  by_contra hj'
  rw [Bool.not_eq_false] at hj'
  have h := (startsWith_take_iff ht).mp hj'
  rw [hall j] at h
  exact absurd h.1 (by simp)

theorem containsSub_eq_false_iff {l t : List Char} :
    containsSub l t = false ↔ idxOfSub l t = none := by
  rw [containsSub]
  cases idxOfSub l t <;> simp

theorem containsSub_of_middle (x t y : List Char) :
    containsSub (x ++ t ++ y) t = true := by
  have hocc : startsWith ((x ++ t ++ y).drop x.length) t = true := by
    rw [List.append_assoc, List.drop_left]
    exact startsWith_append_self t y
  rw [containsSub]
  cases h : idxOfSub (x ++ t ++ y) t with
  | some i => rfl
  | none =>
    have hfalse := idxOfSub_none_iff.mp h x.length
    rw [hocc] at hfalse; cases hfalse

/- ### Regex helpers used by the `cleanText` sanitiser (variant 1, lines 172-176)

`removeDelim` models the global lazy regex `S[\s\S]*?E` replaced by `''`:
repeatedly, the leftmost occurrence of the start token followed (lazily) by
the nearest end token is removed; if the first start token has no end token
after it, nothing matches.  `truncAt` models `S[\s\S]*` replaced by `''`:
the text is truncated at the first occurrence of the start token. -/

def removeDelimFuel : Nat → List Char → List Char → List Char → List Char
  | 0, b, _, _ => b
  | fuel + 1, b, sDel, eDel =>
    match idxOfSub b sDel with
    | none => b
    | some i =>
      match idxOfSub (b.drop (i + sDel.length)) eDel with
      | none => b
      | some k =>
          b.take i ++ removeDelimFuel fuel (b.drop (i + sDel.length + k + eDel.length)) sDel eDel

def removeDelim (b sDel eDel : List Char) : List Char :=
  removeDelimFuel b.length b sDel eDel

def truncAt (b sDel : List Char) : List Char :=
  match idxOfSub b sDel with
  | none => b
  | some i => b.take i

theorem removeDelim_of_noStart {b sDel eDel : List Char}
    (h : idxOfSub b sDel = none) : removeDelim b sDel eDel = b := by
  rw [removeDelim]
  cases hb : b.length with
  | zero => rfl
  | succ n => simp [removeDelimFuel, h]

theorem removeDelim_of_noEnd {b sDel eDel : List Char} {i : Nat}
    (h1 : idxOfSub b sDel = some i)
    (h2 : idxOfSub (b.drop (i + sDel.length)) eDel = none) :
    removeDelim b sDel eDel = b := by
  rw [removeDelim]
  cases hb : b.length with
  | zero =>
    rfl
  | succ n => simp [removeDelimFuel, h1, h2]

theorem truncAt_of_none {b sDel : List Char} (h : idxOfSub b sDel = none) :
    truncAt b sDel = b := by simp [truncAt, h]

theorem truncAt_of_some {b sDel : List Char} {i : Nat} (h : idxOfSub b sDel = some i) :
    truncAt b sDel = b.take i := by simp [truncAt, h]

/- ### The four metadata delimiter tokens (variant 1, lines 126-129) -/

def jsonLdStart : List Char := "%%JSON-LD-START%%".toList
def jsonLdEnd : List Char := "%%JSON-LD-END%%".toList
def metaStart : List Char := "%%META-START%%".toList
def metaEnd : List Char := "%%META-END%%".toList

theorem jsonLdStart_length : jsonLdStart.length = 17 := by decide
theorem jsonLdEnd_length : jsonLdEnd.length = 15 := by decide
theorem metaStart_length : metaStart.length = 14 := by decide
theorem metaEnd_length : metaEnd.length = 12 := by decide

theorem jsonLdStart_ne_nil : jsonLdStart ≠ [] := by decide
theorem jsonLdEnd_ne_nil : jsonLdEnd ≠ [] := by decide
theorem metaStart_ne_nil : metaStart ≠ [] := by decide
theorem metaEnd_ne_nil : metaEnd ≠ [] := by decide

/- ### Stream demultiplexer, variant 1 (src/index.tsx lines 124-179)

Per-chunk state: the accumulated `buffer` plus the two extracted block
values (`articleJsonLd`, `articleMetaDescription`), `none` while absent. -/

/-- JS falsiness of the nullable string state variables: the guards
`!articleJsonLd` / `!articleMetaDescription` are true when the variable
is `null` or holds the empty string. -/
def jsFalsy : Option (List Char) → Bool
  | none => true
  | some l => l.isEmpty

structure DemuxState where
  buffer : List Char
  articleJsonLd : Option (List Char)
  articleMetaDescription : Option (List Char)
deriving DecidableEq, Repr

/-- One iteration of the `for await` loop of variant 1 (lines 149-178),
restricted to its text processing: append the fragment, then run the
guarded JSON-LD extraction (lines 154-159) and the guarded META
extraction (lines 161-169). -/
def stepV1 (st : DemuxState) (frag : List Char) : DemuxState :=
  let b0 := st.buffer ++ frag
  let r1 : List Char × Option (List Char) :=
    if jsFalsy st.articleJsonLd && containsSub b0 jsonLdEnd then
      (replaceFirst b0
         (jsSubstring b0 (jsIndexOf b0 jsonLdStart)
           (jsIndexOf b0 jsonLdEnd + (jsonLdEnd.length : Int))),
       some (jsTrim (jsSubstring b0 (jsIndexOf b0 jsonLdStart + (jsonLdStart.length : Int))
           (jsIndexOf b0 jsonLdEnd))))
    else (b0, st.articleJsonLd)
  let r2 : List Char × Option (List Char) :=
    if jsFalsy st.articleMetaDescription && containsSub r1.1 metaEnd then
      (replaceFirst r1.1
         (jsSubstring r1.1 (jsIndexOf r1.1 metaStart)
           (jsIndexOf r1.1 metaEnd + (metaEnd.length : Int))),
       some (jsTrim (jsSubstring r1.1 (jsIndexOf r1.1 metaStart + (metaStart.length : Int))
           (jsIndexOf r1.1 metaEnd))))
    else (r1.1, st.articleMetaDescription)
  ⟨r2.1, r1.2, r2.2⟩

/-- The sanitised text handed to the markdown renderer (variant 1,
lines 172-176): strip complete delimited regions, then truncate at any
remaining (partially arrived) start delimiter. -/
def cleanText (b : List Char) : List Char :=
  truncAt (truncAt (removeDelim (removeDelim b jsonLdStart jsonLdEnd) metaStart metaEnd)
    jsonLdStart) metaStart

def displayV1 (st : DemuxState) : List Char := cleanText st.buffer

def initV1 : DemuxState := ⟨[], none, none⟩

/-- Processing a whole fragment sequence through variant 1's loop. -/
def runV1 (frags : List (List Char)) : DemuxState := frags.foldl stepV1 initV1

/- ### Stream demultiplexer, variant 2 (src/index.tsx lines 537-566)

This variant extracts only the JSON-LD block, and excises it with
`buffer = buffer.substring(endIndex + jsonLdEndDelimiter.length)`
(line 558), i.e. it drops everything up to and including the end
delimiter.  `displayed` records the text last handed to the renderer
(line 563-565 renders only when the block was extracted or no start
delimiter is in the buffer). -/

structure V2State where
  buffer : List Char
  articleJsonLd : Option (List Char)
  displayed : List Char
deriving DecidableEq, Repr

def stepV2 (st : V2State) (frag : List Char) : V2State :=
  let b0 := st.buffer ++ frag
  let r : List Char × Option (List Char) :=
    if jsFalsy st.articleJsonLd && containsSub b0 jsonLdEnd then
      (jsSubstringFrom b0 (jsIndexOf b0 jsonLdEnd + (jsonLdEnd.length : Int)),
       some (jsTrim (jsSubstring b0 (jsIndexOf b0 jsonLdStart + (jsonLdStart.length : Int))
           (jsIndexOf b0 jsonLdEnd))))
    else (b0, st.articleJsonLd)
  let disp := if !jsFalsy r.2 || !containsSub r.1 jsonLdStart then r.1 else st.displayed
  ⟨r.1, r.2, disp⟩

def runV2 (frags : List (List Char)) : V2State := frags.foldl stepV2 ⟨[], none, []⟩

/-- Reference semantics taken from the specification's words ("the
concatenation of all received text with exactly the delimited regions
(start delimiter through end delimiter, inclusive) removed"): remove
every complete delimited region, leaving all other prose intact. -/
def stripDelimitedRegions (l : List Char) : List Char :=
  removeDelim (removeDelim l jsonLdStart jsonLdEnd) metaStart metaEnd

/- ### Computation rules for the JS substring / replace primitives -/

theorem jsSubstring_coe {l : List Char} {a b : Nat} (hab : a ≤ b) (hb : b ≤ l.length) :
    jsSubstring l (a : Int) (b : Int) = (l.take b).drop a := by
  have hbl : (b : Int) ≤ (l.length : Int) := by exact_mod_cast hb
  have hal : (a : Int) ≤ (l.length : Int) := le_trans (by exact_mod_cast hab) hbl
  have hab' : (a : Int) ≤ (b : Int) := by exact_mod_cast hab
  simp only [jsSubstring]
  rw [min_eq_left hal, min_eq_left hbl,
    max_eq_right (Int.natCast_nonneg a), max_eq_right (Int.natCast_nonneg b),
    min_eq_left hab', max_eq_right hab', Int.toNat_natCast, Int.toNat_natCast]

theorem replaceFirst_eq {l pat : List Char} {i : Nat} (h : idxOfSub l pat = some i) :
    replaceFirst l pat = l.take i ++ l.drop (i + pat.length) := by
  simp [replaceFirst, h]

/- ### Well-formed single-block streams for variant 1

`fullTextV1 p inner s` is a stream whose concatenation carries exactly one
complete well-formed META block, with prose `p` before it and `s` after
it.  `WellFormedV1` captures the requirement that no delimiter token
occurs anywhere else — neither in the original stream nor (decisively) at
the junction `p ++ s` created when the block is spliced out. -/

def mEpos (p inner : List Char) : Nat := p.length + metaStart.length + inner.length

def mEndPos (p inner : List Char) : Nat := mEpos p inner + metaEnd.length

def fullTextV1 (p inner s : List Char) : List Char := p ++ metaStart ++ inner ++ metaEnd ++ s

def WellFormedV1 (p inner s : List Char) : Bool :=
  uniqueOccB (fullTextV1 p inner s) metaStart p.length &&
  uniqueOccB (fullTextV1 p inner s) metaEnd (mEpos p inner) &&
  noOcc (fullTextV1 p inner s) jsonLdStart &&
  noOcc (fullTextV1 p inner s) jsonLdEnd &&
  noOcc (p ++ s) jsonLdStart &&
  noOcc (p ++ s) jsonLdEnd &&
  noOcc (p ++ s) metaStart &&
  noOcc (p ++ s) metaEnd

theorem core_length (p inner : List Char) :
    (((p ++ metaStart) ++ inner) ++ metaEnd).length = mEndPos p inner := by
  simp only [mEndPos, mEpos, List.length_append]

theorem core2_length (p inner : List Char) :
    ((p ++ metaStart) ++ inner).length = mEpos p inner := by
  simp only [mEpos, List.length_append]

theorem fullTextV1_core (p inner s : List Char) :
    fullTextV1 p inner s = (((p ++ metaStart) ++ inner) ++ metaEnd) ++ s := rfl

theorem fullTextV1_length (p inner s : List Char) :
    (fullTextV1 p inner s).length = mEndPos p inner + s.length := by
  rw [fullTextV1_core, List.length_append, core_length]

theorem mEndPos_pos (p inner : List Char) : 26 ≤ mEndPos p inner := by
  simp [mEndPos, mEpos, metaStart_length, metaEnd_length]
  omega

theorem take_full_of_ge (p inner s : List Char) {m : Nat} (hm : mEndPos p inner ≤ m) :
    (fullTextV1 p inner s).take m
      = (((p ++ metaStart) ++ inner) ++ metaEnd) ++ s.take (m - mEndPos p inner) := by
  rw [fullTextV1_core, List.take_append_eq_append_take,
    List.take_of_length_le (by rw [core_length]; exact hm), core_length]

theorem drop_full_endPos (p inner s : List Char) :
    (fullTextV1 p inner s).drop (mEndPos p inner) = s := by
  rw [fullTextV1_core, ← core_length p inner, List.drop_left]

theorem p_app_take (p s : List Char) (q : Nat) :
    p ++ s.take q = (p ++ s).take (p.length + q) :=
  (List.take_append q).symm

theorem wellFormedV1_spec {p inner s : List Char} (h : WellFormedV1 p inner s = true) :
    uniqueOccB (fullTextV1 p inner s) metaStart p.length = true ∧
    uniqueOccB (fullTextV1 p inner s) metaEnd (mEpos p inner) = true ∧
    noOcc (fullTextV1 p inner s) jsonLdStart = true ∧
    noOcc (fullTextV1 p inner s) jsonLdEnd = true ∧
    noOcc (p ++ s) jsonLdStart = true ∧
    noOcc (p ++ s) jsonLdEnd = true ∧
    noOcc (p ++ s) metaStart = true ∧
    noOcc (p ++ s) metaEnd = true := by
  simp only [WellFormedV1, Bool.and_eq_true] at h
  tauto

theorem contains_take_false_of_noOcc {l t : List Char} {m : Nat} (ht : t ≠ [])
    (h : noOcc l t = true) : containsSub (l.take m) t = false :=
  containsSub_eq_false_iff.mpr (idxOfSub_take_none_of_noOcc ht h)

/-- Evaluation of `stepV1` when neither guard fires. -/
theorem stepV1_no_extract (st : DemuxState) (frag : List Char)
    (hj : (jsFalsy st.articleJsonLd && containsSub (st.buffer ++ frag) jsonLdEnd) = false)
    (hm : (jsFalsy st.articleMetaDescription && containsSub (st.buffer ++ frag) metaEnd) = false) :
    stepV1 st frag = ⟨st.buffer ++ frag, st.articleJsonLd, st.articleMetaDescription⟩ := by
  simp only [stepV1, hj, Bool.false_eq_true, if_false]
  simp only [hm, Bool.false_eq_true, if_false]

/-- Evaluation of `stepV1` when only the META guard fires. -/
theorem stepV1_meta_extract (st : DemuxState) (frag : List Char)
    (hj : (jsFalsy st.articleJsonLd && containsSub (st.buffer ++ frag) jsonLdEnd) = false)
    (hmNone : st.articleMetaDescription = none)
    (hm : containsSub (st.buffer ++ frag) metaEnd = true) :
    stepV1 st frag =
      ⟨replaceFirst (st.buffer ++ frag)
          (jsSubstring (st.buffer ++ frag) (jsIndexOf (st.buffer ++ frag) metaStart)
            (jsIndexOf (st.buffer ++ frag) metaEnd + (metaEnd.length : Int))),
        st.articleJsonLd,
        some (jsTrim (jsSubstring (st.buffer ++ frag)
          (jsIndexOf (st.buffer ++ frag) metaStart + (metaStart.length : Int))
          (jsIndexOf (st.buffer ++ frag) metaEnd)))⟩ := by
  simp only [stepV1, hj, Bool.false_eq_true, if_false]
  simp only [hmNone, jsFalsy, hm, Bool.true_and, if_true]

theorem pms_le_mEpos (p inner : List Char) : p.length + metaStart.length ≤ mEpos p inner := by
  simp only [mEpos]; omega

theorem mEpos_lt_mEndPos (p inner : List Char) : mEpos p inner < mEndPos p inner := by
  simp only [mEndPos, metaEnd_length]; omega

/-- At the moment the META end delimiter has fully arrived, the first
occurrences of the two META delimiters in the buffer are the canonical
ones. -/
theorem idx_meta_at_crossing {p inner s : List Char}
    (hmS : uniqueOccB (fullTextV1 p inner s) metaStart p.length = true)
    (hmE : uniqueOccB (fullTextV1 p inner s) metaEnd (mEpos p inner) = true)
    {m : Nat} (hm : mEndPos p inner ≤ m) :
    idxOfSub ((fullTextV1 p inner s).take m) metaStart = some p.length ∧
    idxOfSub ((fullTextV1 p inner s).take m) metaEnd = some (mEpos p inner) := by
  constructor
  · exact idxOfSub_take_of_unique metaStart_ne_nil hmS
      (le_trans (le_trans (pms_le_mEpos p inner) (le_of_lt (mEpos_lt_mEndPos p inner))) hm)
  · exact idxOfSub_take_of_unique metaEnd_ne_nil hmE hm

/-- The extracted value at the crossing round is exactly the trimmed
inner content. -/
theorem value_at_crossing {p inner s : List Char}
    (hmS : uniqueOccB (fullTextV1 p inner s) metaStart p.length = true)
    (hmE : uniqueOccB (fullTextV1 p inner s) metaEnd (mEpos p inner) = true)
    {m : Nat} (hm : mEndPos p inner ≤ m) :
    jsTrim (jsSubstring ((fullTextV1 p inner s).take m)
        (jsIndexOf ((fullTextV1 p inner s).take m) metaStart + (metaStart.length : Int))
        (jsIndexOf ((fullTextV1 p inner s).take m) metaEnd)) = jsTrim inner := by
  obtain ⟨hidxS, hidxE⟩ := idx_meta_at_crossing hmS hmE hm
  have hjsS : jsIndexOf ((fullTextV1 p inner s).take m) metaStart = (p.length : Int) := by
    simp [jsIndexOf, hidxS]
  have hjsE : jsIndexOf ((fullTextV1 p inner s).take m) metaEnd = ((mEpos p inner : Nat) : Int) := by
    simp [jsIndexOf, hidxE]
  rw [hjsS, hjsE]
  have hcast : (p.length : Int) + (metaStart.length : Int)
      = ((p.length + metaStart.length : Nat) : Int) := by push_cast; ring
  rw [hcast]
  have hlen : mEpos p inner ≤ ((fullTextV1 p inner s).take m).length := by
    rw [List.length_take, fullTextV1_length]
    have h1 := mEpos_lt_mEndPos p inner
    omega
  rw [jsSubstring_coe (pms_le_mEpos p inner) hlen]
  congr 1
  rw [List.take_take, min_eq_left (le_trans (le_of_lt (mEpos_lt_mEndPos p inner)) hm)]
  have hfull2 : fullTextV1 p inner s = ((p ++ metaStart) ++ inner) ++ (metaEnd ++ s) := by
    rw [fullTextV1_core, List.append_assoc]
  rw [hfull2, ← core2_length p inner, List.take_left, ← List.length_append p metaStart,
    List.drop_left]

/-- Splicing the delimited region out of the buffer at the crossing round
leaves exactly the surrounding prose. -/
theorem splice_at_crossing {p inner s : List Char}
    (hmS : uniqueOccB (fullTextV1 p inner s) metaStart p.length = true)
    (hmE : uniqueOccB (fullTextV1 p inner s) metaEnd (mEpos p inner) = true)
    {m : Nat} (hm : mEndPos p inner ≤ m) :
    replaceFirst ((fullTextV1 p inner s).take m)
        (jsSubstring ((fullTextV1 p inner s).take m)
          (jsIndexOf ((fullTextV1 p inner s).take m) metaStart)
          (jsIndexOf ((fullTextV1 p inner s).take m) metaEnd + (metaEnd.length : Int)))
      = p ++ s.take (m - mEndPos p inner) := by
  obtain ⟨hidxS, hidxE⟩ := idx_meta_at_crossing hmS hmE hm
  have hjsS : jsIndexOf ((fullTextV1 p inner s).take m) metaStart = (p.length : Int) := by
    simp [jsIndexOf, hidxS]
  have hjsE : jsIndexOf ((fullTextV1 p inner s).take m) metaEnd = ((mEpos p inner : Nat) : Int) := by
    simp [jsIndexOf, hidxE]
  rw [hjsS, hjsE]
  have hcast : ((mEpos p inner : Nat) : Int) + (metaEnd.length : Int)
      = ((mEndPos p inner : Nat) : Int) := by
    rw [mEndPos]; push_cast; ring
  rw [hcast]
  have hple : p.length ≤ mEndPos p inner := by
    simp only [mEndPos, mEpos]; omega
  have hlen : mEndPos p inner ≤ ((fullTextV1 p inner s).take m).length := by
    rw [List.length_take, fullTextV1_length]
    omega
  rw [jsSubstring_coe hple hlen]
  -- the removed substring is the full delimited region
  have hremoved : (((fullTextV1 p inner s).take m).take (mEndPos p inner)).drop p.length
      = metaStart ++ (inner ++ metaEnd) := by
    rw [List.take_take, min_eq_left hm]
    rw [fullTextV1_core, ← core_length p inner, List.take_left]
    have hcore : ((p ++ metaStart) ++ inner) ++ metaEnd = p ++ (metaStart ++ (inner ++ metaEnd)) := by
      simp [List.append_assoc]
    rw [hcore, List.drop_left]
  rw [hremoved]
  -- the removed region's first occurrence in the buffer is at `p.length`
  have hpatlen : (metaStart ++ (inner ++ metaEnd)).length = mEndPos p inner - p.length := by
    simp only [List.length_append, mEndPos, mEpos]
    omega
  have hfirst : idxOfSub ((fullTextV1 p inner s).take m) (metaStart ++ (inner ++ metaEnd))
      = some p.length := by
    refine idxOfSub_some_iff.mpr ⟨?_, ?_⟩
    · rw [List.drop_take]
      have hdropfull : (fullTextV1 p inner s).drop p.length
          = (metaStart ++ (inner ++ metaEnd)) ++ s := by
        have hfull3 : fullTextV1 p inner s = p ++ ((metaStart ++ (inner ++ metaEnd)) ++ s) := by
          rw [fullTextV1_core]
          simp [List.append_assoc]
        rw [hfull3, List.drop_left]
      rw [hdropfull]
      refine startsWith_take_of (startsWith_append_self _ _) ?_
      rw [hpatlen]
      omega
    · intro j hj
      by_contra hj'
      rw [Bool.not_eq_false] at hj'
      have hjS' : startsWith (((fullTextV1 p inner s).take m).drop j) metaStart = true :=
        startsWith_pat_append hj'
      have hocc := ((startsWith_take_iff metaStart_ne_nil).mp hjS').1
      have := (uniqueOccB_iff.mp hmS j).mp hocc
      omega
  rw [replaceFirst_eq hfirst]
  have hdropend : ((fullTextV1 p inner s).take m).drop (p.length + (metaStart ++ (inner ++ metaEnd)).length)
      = s.take (m - mEndPos p inner) := by
    have harith : p.length + (metaStart ++ (inner ++ metaEnd)).length = mEndPos p inner := by
      rw [hpatlen]; omega
    rw [harith, List.drop_take, drop_full_endPos]
  rw [hdropend]
  have htakep : ((fullTextV1 p inner s).take m).take p.length = p := by
    rw [List.take_take, min_eq_left (le_trans hple hm)]
    have hfull4 : fullTextV1 p inner s = p ++ (metaStart ++ (inner ++ (metaEnd ++ s))) := by
      rw [fullTextV1_core]
      simp [List.append_assoc]
    rw [hfull4, List.take_left]
  rw [htakep]

/-- Invariant of variant 1's loop over a well-formed single-META stream:
after consuming the first `n` characters, either the block's end
delimiter has not fully arrived and the state is the raw prefix with both
blocks absent, or the block has been extracted, the buffer is the prose
around the excised region, and the META value is the trimmed inner
content. -/
def InvV1 (p inner s : List Char) (n : Nat) (st : DemuxState) : Prop :=
  (n < mEndPos p inner → st = ⟨(fullTextV1 p inner s).take n, none, none⟩) ∧
  (mEndPos p inner ≤ n → st = ⟨p ++ s.take (n - mEndPos p inner), none, some (jsTrim inner)⟩)

/-- One round of variant 1's loop preserves `InvV1`, for any fragment `f`
that continues the stream (`hf` says the consumed prefix extends by `f`). -/
theorem stepV1_inv {p inner s : List Char} (hwf : WellFormedV1 p inner s = true)
    {n : Nat} {f : List Char} {st : DemuxState}
    (hf : (fullTextV1 p inner s).take (n + f.length) = (fullTextV1 p inner s).take n ++ f)
    (hst : InvV1 p inner s n st) :
    InvV1 p inner s (n + f.length) (stepV1 st f) := by
  obtain ⟨hmS, hmE, hjS, hjE, hjS2, hjE2, hmS2, hmE2⟩ := wellFormedV1_spec hwf
  rcases Nat.lt_or_ge n (mEndPos p inner) with hn | hn
  · -- the block was still absent before this round
    have hstA := hst.1 hn
    subst hstA
    have hbuf : (fullTextV1 p inner s).take n ++ f = (fullTextV1 p inner s).take (n + f.length) :=
      hf.symm
    have hjg : containsSub ((fullTextV1 p inner s).take n ++ f) jsonLdEnd = false := by
      rw [hbuf]; exact contains_take_false_of_noOcc jsonLdEnd_ne_nil hjE
    rcases Nat.lt_or_ge (n + f.length) (mEndPos p inner) with hm | hm
    · -- the end delimiter still has not arrived: no extraction
      have hmg : containsSub ((fullTextV1 p inner s).take n ++ f) metaEnd = false := by
        rw [hbuf]
        exact containsSub_eq_false_iff.mpr (idxOfSub_take_none_of_unique metaEnd_ne_nil hmE hm)
      have hstep := stepV1_no_extract ⟨(fullTextV1 p inner s).take n, none, none⟩
        f
        (by
          show (jsFalsy (none : Option (List Char))
              && containsSub ((fullTextV1 p inner s).take n ++ f) jsonLdEnd) = false
          rw [hjg, Bool.and_false])
        (by
          show (jsFalsy (none : Option (List Char))
              && containsSub ((fullTextV1 p inner s).take n ++ f) metaEnd) = false
          rw [hmg, Bool.and_false])
      refine ⟨fun _ => ?_, fun hc => absurd hc (by omega)⟩
      rw [hstep]
      simp only [hbuf]
    · -- the end delimiter has fully arrived: the META block is extracted
      have hmg : containsSub ((fullTextV1 p inner s).take n ++ f) metaEnd = true := by
        rw [hbuf, containsSub, (idx_meta_at_crossing hmS hmE hm).2]
        rfl
      have hstep := stepV1_meta_extract ⟨(fullTextV1 p inner s).take n, none, none⟩
        f
        (by
          show (jsFalsy (none : Option (List Char))
              && containsSub ((fullTextV1 p inner s).take n ++ f) jsonLdEnd) = false
          rw [hjg, Bool.and_false])
        rfl (by simpa using hmg)
      refine ⟨fun hc => absurd hc (by omega), fun _ => ?_⟩
      rw [hstep]
      simp only [hbuf]
      rw [value_at_crossing hmS hmE hm, splice_at_crossing hmS hmE hm]
  · -- the block was already extracted: both guards are off
    have hstB := hst.2 hn
    subst hstB
    -- the new buffer is the prose around the region, extended by `f`
    have hfr : s.take (n + f.length - mEndPos p inner) = s.take (n - mEndPos p inner) ++ f := by
      have h1 := take_full_of_ge p inner s hn
      have h2 := take_full_of_ge p inner s
        (le_trans hn (by omega : n ≤ n + f.length))
      rw [h1, h2] at hf
      simp only [List.append_assoc] at hf
      exact List.append_cancel_left (List.append_cancel_left
        (List.append_cancel_left (List.append_cancel_left hf)))
  -- (continued below)
    have hbuf : (p ++ s.take (n - mEndPos p inner)) ++ f = p ++ s.take (n + f.length - mEndPos p inner) := by
      rw [hfr, List.append_assoc]
    have hjg : containsSub ((p ++ s.take (n - mEndPos p inner)) ++ f) jsonLdEnd = false := by
      rw [hbuf, p_app_take]
      exact contains_take_false_of_noOcc jsonLdEnd_ne_nil hjE2
    have hmg2 : containsSub ((p ++ s.take (n - mEndPos p inner)) ++ f) metaEnd = false := by
      rw [hbuf, p_app_take]
      exact contains_take_false_of_noOcc metaEnd_ne_nil hmE2
    have hstep := stepV1_no_extract
      ⟨p ++ s.take (n - mEndPos p inner), none, some (jsTrim inner)⟩ f
      (by
        show (jsFalsy (none : Option (List Char))
            && containsSub ((p ++ s.take (n - mEndPos p inner)) ++ f) jsonLdEnd) = false
        rw [hjg, Bool.and_false])
      (by
        show (jsFalsy (some (jsTrim inner))
            && containsSub ((p ++ s.take (n - mEndPos p inner)) ++ f) metaEnd) = false
        rw [hmg2, Bool.and_false])
    refine ⟨fun hc => absurd hc (by omega), fun _ => ?_⟩
    rw [hstep]
    simp only [hbuf]

theorem invV1_init (p inner s : List Char) : InvV1 p inner s 0 initV1 := by
  constructor
  · intro _; rfl
  · intro hc
    exfalso
    have := mEndPos_pos p inner
    omega

/-- Folding variant 1's loop over any fragment list that delivers a prefix
of the stream maintains the invariant. -/
theorem foldV1_inv {p inner s : List Char} (hwf : WellFormedV1 p inner s = true)
    (gs : List (List Char)) :
    ∀ (n : Nat) (st : DemuxState) (rest : List Char),
      (fullTextV1 p inner s).drop n = gs.flatten ++ rest →
      n ≤ (fullTextV1 p inner s).length →
      InvV1 p inner s n st →
      InvV1 p inner s (n + gs.flatten.length) (List.foldl stepV1 st gs) := by
  induction gs with
  | nil =>
    intro n st rest hpre hn hst
    simpa using hst
  | cons f gs ih =>
    intro n st rest hpre hn hst
    have hlen := congrArg List.length hpre
    rw [List.length_drop] at hlen
    simp only [List.flatten_cons, List.length_append] at hlen
    have hnf : n + f.length ≤ (fullTextV1 p inner s).length := by omega
    have hf : (fullTextV1 p inner s).take (n + f.length) = (fullTextV1 p inner s).take n ++ f := by
      rw [List.take_add]
      congr 1
      rw [hpre, List.flatten_cons, List.append_assoc, List.take_left]
    have hpre' : (fullTextV1 p inner s).drop (n + f.length) = gs.flatten ++ rest := by
      rw [← List.drop_drop, hpre, List.flatten_cons, List.append_assoc, List.drop_left]
    have hres := ih (n + f.length) (stepV1 st f) rest hpre' hnf (stepV1_inv hwf hf hst)
    simp only [List.foldl_cons, List.flatten_cons, List.length_append]
    simpa [Nat.add_assoc] using hres

/-- Any complete delivery of a well-formed stream ends in the canonical
final state. -/
theorem runV1_final {p inner s : List Char} (hwf : WellFormedV1 p inner s = true)
    (gs : List (List Char)) (hgs : gs.flatten = fullTextV1 p inner s) :
    runV1 gs = ⟨p ++ s, none, some (jsTrim inner)⟩ := by
  have hpre0 : (fullTextV1 p inner s).drop 0 = gs.flatten ++ [] := by simp [hgs]
  have hinv := foldV1_inv hwf gs 0 initV1 [] hpre0 (Nat.zero_le _) (invV1_init p inner s)
  have hlen : gs.flatten.length = mEndPos p inner + s.length := by
    rw [hgs, fullTextV1_length]
  have hfin := hinv.2 (by omega)
  rw [runV1, hfin]
  have harith : 0 + gs.flatten.length - mEndPos p inner = s.length := by omega
  rw [harith, List.take_length]

/-- Characterisation of the sanitised display text in any invariant
state: it is the raw prose before the block's start delimiter has fully
arrived, `p` (truncated at the start delimiter) while the block is in
flight, and the spliced prose afterwards — in each case free of all four
delimiter tokens, and never overlapping the delimited region's content. -/
theorem displayV1_of_inv {p inner s : List Char} (hwf : WellFormedV1 p inner s = true)
    {n : Nat} {st : DemuxState} (hst : InvV1 p inner s n st) :
    containsSub (displayV1 st) jsonLdStart = false ∧
    containsSub (displayV1 st) jsonLdEnd = false ∧
    containsSub (displayV1 st) metaStart = false ∧
    containsSub (displayV1 st) metaEnd = false ∧
    displayV1 st =
      (if n < p.length + metaStart.length then (fullTextV1 p inner s).take n
       else if n < mEndPos p inner then p
       else p ++ s.take (n - mEndPos p inner)) := by
  obtain ⟨hmS, hmE, hjS, hjE, hjS2, hjE2, hmS2, hmE2⟩ := wellFormedV1_spec hwf
  have hdef1 : mEndPos p inner = mEpos p inner + metaEnd.length := rfl
  have hdef2 : mEpos p inner = p.length + metaStart.length + inner.length := rfl
  have h14 : metaStart.length = 14 := metaStart_length
  have h12 : metaEnd.length = 12 := metaEnd_length
  rcases Nat.lt_or_ge n (mEndPos p inner) with hn1 | hn1
  · have hstA := hst.1 hn1
    subst hstA
    simp only [displayV1]
    have hjs_none : idxOfSub ((fullTextV1 p inner s).take n) jsonLdStart = none :=
      idxOfSub_take_none_of_noOcc jsonLdStart_ne_nil hjS
    have hje_none : idxOfSub ((fullTextV1 p inner s).take n) jsonLdEnd = none :=
      idxOfSub_take_none_of_noOcc jsonLdEnd_ne_nil hjE
    have hme_none : idxOfSub ((fullTextV1 p inner s).take n) metaEnd = none :=
      idxOfSub_take_none_of_unique metaEnd_ne_nil hmE (by omega)
    rcases Nat.lt_or_ge n (p.length + metaStart.length) with hn2 | hn2
    · -- the start delimiter has not yet fully arrived: display the raw prefix
      have hms_none : idxOfSub ((fullTextV1 p inner s).take n) metaStart = none :=
        idxOfSub_take_none_of_unique metaStart_ne_nil hmS hn2
      have hclean : cleanText ((fullTextV1 p inner s).take n) = (fullTextV1 p inner s).take n := by
        rw [cleanText, removeDelim_of_noStart hjs_none, removeDelim_of_noStart hms_none,
          truncAt_of_none hjs_none, truncAt_of_none hms_none]
      rw [hclean]
      exact ⟨containsSub_eq_false_iff.mpr hjs_none, containsSub_eq_false_iff.mpr hje_none,
        containsSub_eq_false_iff.mpr hms_none, containsSub_eq_false_iff.mpr hme_none,
        by rw [if_pos hn2]⟩
    · -- the start delimiter is in the buffer but the end is not: truncate
      have hms_some : idxOfSub ((fullTextV1 p inner s).take n) metaStart = some p.length :=
        idxOfSub_take_of_unique metaStart_ne_nil hmS hn2
      have hinner_none :
          idxOfSub (((fullTextV1 p inner s).take n).drop (p.length + metaStart.length)) metaEnd
            = none := by
        rw [idxOfSub_none_iff]
        intro j
        by_contra hj'
        rw [Bool.not_eq_false] at hj'
        rw [List.drop_drop] at hj'
        have h := (startsWith_take_iff metaEnd_ne_nil).mp hj'
        have heq := (uniqueOccB_iff.mp hmE (p.length + metaStart.length + j)).mp h.1
        omega
      have hclean : cleanText ((fullTextV1 p inner s).take n)
          = ((fullTextV1 p inner s).take n).take p.length := by
        rw [cleanText, removeDelim_of_noStart hjs_none, removeDelim_of_noEnd hms_some hinner_none,
          truncAt_of_none hjs_none, truncAt_of_some hms_some]
      have htakep : ((fullTextV1 p inner s).take n).take p.length = p := by
        rw [List.take_take, min_eq_left (by omega)]
        have hfull4 : fullTextV1 p inner s = p ++ (metaStart ++ (inner ++ (metaEnd ++ s))) := by
          rw [fullTextV1_core]; simp [List.append_assoc]
        rw [hfull4, List.take_left]
      rw [hclean, htakep]
      -- `p` itself is the prefix of the stream before the start delimiter
      have hp_take : p = (fullTextV1 p inner s).take p.length := by
        have hfull4 : fullTextV1 p inner s = p ++ (metaStart ++ (inner ++ (metaEnd ++ s))) := by
          rw [fullTextV1_core]; simp [List.append_assoc]
        rw [hfull4, List.take_left]
      constructor
      · rw [hp_take]
        exact containsSub_eq_false_iff.mpr (idxOfSub_take_none_of_noOcc jsonLdStart_ne_nil hjS)
      constructor
      · rw [hp_take]
        exact containsSub_eq_false_iff.mpr (idxOfSub_take_none_of_noOcc jsonLdEnd_ne_nil hjE)
      constructor
      · rw [hp_take]
        exact containsSub_eq_false_iff.mpr
          (idxOfSub_take_none_of_unique metaStart_ne_nil hmS (by omega))
      constructor
      · rw [hp_take]
        exact containsSub_eq_false_iff.mpr
          (idxOfSub_take_none_of_unique metaEnd_ne_nil hmE (by omega))
      · rw [if_neg (by omega), if_pos hn1]
  · -- block already extracted: the display is the spliced prose
    have hstB := hst.2 hn1
    subst hstB
    simp only [displayV1]
    have hform : p ++ s.take (n - mEndPos p inner)
        = (p ++ s).take (p.length + (n - mEndPos p inner)) := p_app_take p s _
    have hjs_none : idxOfSub (p ++ s.take (n - mEndPos p inner)) jsonLdStart = none := by
      rw [hform]; exact idxOfSub_take_none_of_noOcc jsonLdStart_ne_nil hjS2
    have hje_none : idxOfSub (p ++ s.take (n - mEndPos p inner)) jsonLdEnd = none := by
      rw [hform]; exact idxOfSub_take_none_of_noOcc jsonLdEnd_ne_nil hjE2
    have hms_none : idxOfSub (p ++ s.take (n - mEndPos p inner)) metaStart = none := by
      rw [hform]; exact idxOfSub_take_none_of_noOcc metaStart_ne_nil hmS2
    have hme_none : idxOfSub (p ++ s.take (n - mEndPos p inner)) metaEnd = none := by
      rw [hform]; exact idxOfSub_take_none_of_noOcc metaEnd_ne_nil hmE2
    have hclean : cleanText (p ++ s.take (n - mEndPos p inner))
        = p ++ s.take (n - mEndPos p inner) := by
      rw [cleanText, removeDelim_of_noStart hjs_none, removeDelim_of_noStart hms_none,
        truncAt_of_none hjs_none, truncAt_of_none hms_none]
    rw [hclean]
    exact ⟨containsSub_eq_false_iff.mpr hjs_none, containsSub_eq_false_iff.mpr hje_none,
      containsSub_eq_false_iff.mpr hms_none, containsSub_eq_false_iff.mpr hme_none,
      by rw [if_neg (by omega), if_neg (by omega)]⟩

/- ### Concrete streams used by counterexamples and witnesses -/

/-- A stream carrying a well-formed META block whose splice creates a
spurious `%%JSON-LD-END%%` occurrence at the junction of the surrounding
prose. -/
def cexFull : List Char := "A%%JSON-LD-E%%META-START%%x%%META-END%%ND%%B".toList

def cexF1 : List Char := "A%%JSON-LD-E%%META-START%%x%%META-END%%".toList

def cexF2 : List Char := "ND%%B".toList

/-- First fragment of the specification's example scenario. -/
def specFrag1 : List Char := "%%META-START%%Great guide%%META-END%%# Title\nBody ".toList

/-- Second fragment of the specification's example scenario. -/
def specFrag2 : List Char := " text here.".toList

/-- Claim C1 counterexample: the concatenation `cexFull = cexF1 ++ cexF2`
contains a complete well-formed META block (`%%META-START%%x%%META-END%%`),
yet delivering it as one fragment and as two fragments yields different
final display texts (and different final states): splicing the block out
forms `%%JSON-LD-END%%` at the junction `"A%%JSON-LD-E" ++ "ND%%B"`, which
is noticed only if a further fragment arrives afterwards. -/
theorem c1_chunk_dependence_cex :
    cexFull = "A%%JSON-LD-E".toList ++ metaStart ++ "x".toList ++ metaEnd ++ "ND%%B".toList ∧
    cexFull = cexF1 ++ cexF2 ∧
    displayV1 (runV1 [cexFull]) ≠ displayV1 (runV1 [cexF1, cexF2]) ∧
    runV1 [cexFull] ≠ runV1 [cexF1, cexF2] :=
  ⟨by decide, by decide, by decide, by decide⟩

/-- Claim C1 (amended): for fragment sequences whose concatenation is a
well-formed stream `p ++ metaStart ++ inner ++ metaEnd ++ s` — the META
delimiters occurring only at their canonical positions, no JSON-LD
delimiter occurring anywhere, and no delimiter token being formed at the
splice junction `p ++ s` — iterating the per-chunk extraction step yields
the same final state, extracted block value `jsTrim inner`, and display
text, no matter how the concatenation is split into fragments. -/
theorem c1_chunk_invariance_wellformed (p inner s : List Char)
    (frags frags' : List (List Char)) (hwf : WellFormedV1 p inner s = true)
    (hj : frags.flatten = fullTextV1 p inner s)
    (hj' : frags'.flatten = fullTextV1 p inner s) :
    runV1 frags = runV1 frags' ∧
    (runV1 frags).articleMetaDescription = some (jsTrim inner) ∧
    (runV1 frags).articleJsonLd = none ∧
    (runV1 frags).buffer = p ++ s ∧
    displayV1 (runV1 frags) = displayV1 (runV1 frags') := by
  have h1 := runV1_final hwf frags hj
  have h2 := runV1_final hwf frags' hj'
  rw [h1, h2]
  simp

/-- Witness for `c1_chunk_invariance_wellformed`: the specification's
scenario stream, delivered in the scenario's two fragments versus as one
fragment, produces the same state and the extracted summary
`"Great guide"`. -/
theorem c1_chunk_invariance_witness :
    runV1 [specFrag1, specFrag2] = runV1 [specFrag1 ++ specFrag2] ∧
    (runV1 [specFrag1, specFrag2]).articleMetaDescription
      = some (jsTrim "Great guide".toList) :=
  let h := c1_chunk_invariance_wellformed [] "Great guide".toList
    "# Title\nBody  text here.".toList [specFrag1, specFrag2] [specFrag1 ++ specFrag2]
    (by decide) (by decide) (by decide)
  ⟨h.1, h.2.1⟩

/-- Claim C5 counterexample: after the single-fragment delivery of
`cexFull`, the final display text handed to the renderer contains the
metadata end delimiter `%%JSON-LD-END%%`, formed at the splice junction and
not removed by the `cleanText` sanitiser (which only matches regions led by
a start delimiter). -/
theorem c5_delimiter_in_display_cex :
    containsSub (displayV1 (runV1 [cexFull])) jsonLdEnd = true ∧
    displayV1 (runV1 [cexFull]) = "A%%JSON-LD-END%%B".toList :=
  ⟨by decide, by decide⟩

/-- Claim C5 (amended): over a well-formed stream (in the sense of
`WellFormedV1`, which also excludes junction-formed tokens), at every step
of the loop the display text contains none of the four delimiter tokens,
and is always either the raw prefix before the start delimiter has fully
arrived, the prose `p` truncated at the start delimiter, or the spliced
prose — never any part of the enclosed block content. -/
theorem c5_display_suppression_wellformed (p inner s : List Char)
    (frags : List (List Char)) (rest : List Char) (k : Nat)
    (hwf : WellFormedV1 p inner s = true)
    (hpre : frags.flatten ++ rest = fullTextV1 p inner s) :
    containsSub (displayV1 (runV1 (frags.take k))) jsonLdStart = false ∧
    containsSub (displayV1 (runV1 (frags.take k))) jsonLdEnd = false ∧
    containsSub (displayV1 (runV1 (frags.take k))) metaStart = false ∧
    containsSub (displayV1 (runV1 (frags.take k))) metaEnd = false ∧
    displayV1 (runV1 (frags.take k)) =
      (if (frags.take k).flatten.length < p.length + metaStart.length
         then (fullTextV1 p inner s).take (frags.take k).flatten.length
       else if (frags.take k).flatten.length < mEndPos p inner then p
       else p ++ s.take ((frags.take k).flatten.length - mEndPos p inner)) := by
  have hsplit : (frags.take k).flatten ++ ((frags.drop k).flatten ++ rest)
      = fullTextV1 p inner s := by
    rw [← List.append_assoc, ← List.flatten_append, List.take_append_drop]
    exact hpre
  have hpre0 : (fullTextV1 p inner s).drop 0
      = (frags.take k).flatten ++ ((frags.drop k).flatten ++ rest) := by
    simpa using hsplit.symm
  have hinv := foldV1_inv hwf (frags.take k) 0 initV1 _ hpre0 (Nat.zero_le _)
    (invV1_init p inner s)
  rw [Nat.zero_add] at hinv
  exact displayV1_of_inv hwf hinv

/-- Witness for `c5_display_suppression_wellformed`: after the first
fragment of the specification's scenario, the display carries no delimiter
token. -/
theorem c5_display_suppression_witness :
    containsSub (displayV1 (runV1 ([specFrag1, specFrag2].take 1))) metaStart = false ∧
    containsSub (displayV1 (runV1 ([specFrag1, specFrag2].take 1))) metaEnd = false ∧
    containsSub (displayV1 (runV1 ([specFrag1, specFrag2].take 1))) jsonLdEnd = false :=
  let h := c5_display_suppression_wellformed [] "Great guide".toList
    "# Title\nBody  text here.".toList [specFrag1, specFrag2] [] 1 (by decide) (by decide)
  ⟨h.2.2.1, h.2.2.2.1, h.2.1⟩

/-- First fragment of the C9 counterexample: an empty JSON-LD block,
whose extracted value is the empty string — set (non-null) but falsy. -/
def c9frag1 : List Char := "%%JSON-LD-START%%%%JSON-LD-END%%".toList

/-- Second fragment of the C9 counterexample: a bare end delimiter, which
re-fires the extraction because `!""` is true in JS. -/
def c9frag2 : List Char := "A%%JSON-LD-END%%B".toList

/-- Claim C9 counterexample: the guards test JS falsiness, not nullness.
Streaming an empty JSON-LD block sets `articleJsonLd = ""` — a set,
non-null value — yet a later fragment containing an end delimiter
re-extracts and overwrites it, because `!articleJsonLd` is true for the
empty string. -/
theorem c9_empty_value_overwritten_cex :
    (runV1 [c9frag1]).articleJsonLd = some [] ∧
    (runV1 [c9frag1, c9frag2]).articleJsonLd = some "%%JSON-LD-END%%".toList ∧
    (runV1 [c9frag1, c9frag2]).articleJsonLd ≠ (runV1 [c9frag1]).articleJsonLd :=
  ⟨by decide, by decide, by decide⟩

/-- Claim C9 (amended): once a BlockKind's extracted value is set to a
non-empty string, no subsequent fragment-processing step overwrites or
mutates it, and when both values are non-empty the step only appends the
fragment to the buffer without re-running extraction; a value set to the
empty string, however, is treated as absent by the falsy guard and may be
re-extracted and overwritten. -/
theorem c9_nonempty_values_immutable (st : DemuxState) (frag : List Char) :
    (∀ v, v ≠ [] → st.articleJsonLd = some v → (stepV1 st frag).articleJsonLd = some v) ∧
    (∀ w, w ≠ [] → st.articleMetaDescription = some w →
      (stepV1 st frag).articleMetaDescription = some w) ∧
    (jsFalsy st.articleJsonLd = false → jsFalsy st.articleMetaDescription = false →
      stepV1 st frag = ⟨st.buffer ++ frag, st.articleJsonLd, st.articleMetaDescription⟩) := by
  refine ⟨?_, ?_, ?_⟩
  · intro v hne hv
    have hfal : jsFalsy (some v) = false := by
      simp [jsFalsy, List.isEmpty_iff, hne]
    simp [stepV1, hv, hfal]
  · intro w hne hw
    have hfal : jsFalsy (some w) = false := by
      simp [jsFalsy, List.isEmpty_iff, hne]
    simp [stepV1, hw, hfal]
  · intro hj hm
    simp [stepV1, hj, hm]

/-- Witness for `c9_nonempty_values_immutable`: a state with both values
set to non-empty strings receives a fragment containing a META end
delimiter; the stored META value survives and the buffer merely grows. -/
theorem c9_nonempty_values_witness :
    (stepV1 ⟨"A".toList, some "J".toList, some "M".toList⟩
        "B%%META-END%%".toList).articleMetaDescription = some "M".toList ∧
    (stepV1 ⟨"A".toList, some "J".toList, some "M".toList⟩
        "B%%META-END%%".toList).buffer = "AB%%META-END%%".toList :=
  let h := c9_nonempty_values_immutable ⟨"A".toList, some "J".toList, some "M".toList⟩
    "B%%META-END%%".toList
  ⟨h.2.1 "M".toList (by decide) rfl, by rw [h.2.2 (by decide) (by decide)]; decide⟩

/-- Claim C10: when the JSON-LD end delimiter is in the buffer but the
start delimiter is not, variant 1 still marks the block as extracted; the
value is computed from offset `indexOf(start) + start.length` with
`indexOf(start) = -1`, i.e. from offset `16`, unrelated to any start
marker. -/
theorem c10_end_delimiter_alone_triggers (st : DemuxState) (frag : List Char)
    (hnone : st.articleJsonLd = none)
    (hend : containsSub (st.buffer ++ frag) jsonLdEnd = true)
    (hnostart : containsSub (st.buffer ++ frag) jsonLdStart = false) :
    jsIndexOf (st.buffer ++ frag) jsonLdStart = -1 ∧
    (stepV1 st frag).articleJsonLd
      = some (jsTrim (jsSubstring (st.buffer ++ frag) 16
          (jsIndexOf (st.buffer ++ frag) jsonLdEnd))) := by
  have hidx : idxOfSub (st.buffer ++ frag) jsonLdStart = none :=
    containsSub_eq_false_iff.mp hnostart
  have hjs : jsIndexOf (st.buffer ++ frag) jsonLdStart = -1 := by
    simp [jsIndexOf, hidx]
  refine ⟨hjs, ?_⟩
  have hstep : (stepV1 st frag).articleJsonLd
      = some (jsTrim (jsSubstring (st.buffer ++ frag)
          (jsIndexOf (st.buffer ++ frag) jsonLdStart + (jsonLdStart.length : Int))
          (jsIndexOf (st.buffer ++ frag) jsonLdEnd))) := by
    simp [stepV1, jsFalsy, hnone, hend]
  rw [hstep, hjs]
  norm_num [jsonLdStart_length]

/-- Witness for `c10_end_delimiter_alone_triggers`: buffer `"AB"` receives
`"C%%JSON-LD-END%%D"`; no start delimiter is present, yet the block is
marked extracted with a value read from offset 16. -/
theorem c10_end_delimiter_witness :
    jsIndexOf ("AB".toList ++ "C%%JSON-LD-END%%D".toList) jsonLdStart = -1 ∧
    (stepV1 ⟨"AB".toList, none, none⟩ "C%%JSON-LD-END%%D".toList).articleJsonLd
      = some (jsTrim (jsSubstring ("AB".toList ++ "C%%JSON-LD-END%%D".toList) 16
          (jsIndexOf ("AB".toList ++ "C%%JSON-LD-END%%D".toList) jsonLdEnd))) :=
  c10_end_delimiter_alone_triggers ⟨"AB".toList, none, none⟩ "C%%JSON-LD-END%%D".toList
    rfl (by decide) (by decide)

/- ### Claim C2: variant 2's excision drops the prose before the block -/

/-- A single chunk with prose before the JSON-LD block. -/
def c2input : List Char := "Hello %%JSON-LD-START%%{}%%JSON-LD-END%%World".toList

/-- Claim C2: variant 2 (lines 551-558) excises the block with
`buffer = buffer.substring(endIndex + jsonLdEndDelimiter.length)`, which
drops everything before the end delimiter — including the prose
`"Hello "` that lies outside the delimited region — contradicting the
code's own comment ("Remove the JSON-LD block (including delimiters) from
the buffer") and the claimed display equation. -/
theorem c2_prefix_prose_dropped :
    (runV2 [c2input]).articleJsonLd = some "{}".toList ∧
    (runV2 [c2input]).displayed = "World".toList ∧
    stripDelimitedRegions c2input = "Hello World".toList ∧
    (runV2 [c2input]).displayed ≠ stripDelimitedRegions c2input :=
  ⟨by decide, by decide, by decide, by decide⟩

/- ### Placeholder resolver / image filler (variant 1, lines 218-292)

The asynchronous image service is modelled by an oracle giving the
outcome of each call for a token: a successful generation carrying data,
a SAFETY finish, a response without inline data, or a thrown error
(rate limits surface as thrown errors; the code gives them no special
treatment). -/

inductive ImgOutcome where
  | ok (data : List Char)
  | safety
  | noData
  | err (msg : List Char)
deriving DecidableEq, Repr

/-- The display anchor that stands at a placeholder's position. -/
inductive AnchorState where
  | loading
  | resolvedVisual (data alt : List Char)
  | failureIndicator (msg : List Char)
deriving DecidableEq, Repr

def noDataMsg : List Char := "No visual data in response.".toList

def safetyBlockedMsg : List Char := "Blocked by content safety filters.".toList

/-- One token's resolution (the body of the per-match task, lines 233-288):
returns the number of image-synthesis calls made and the final anchor
state.  A SAFETY finish triggers exactly one neutral-prompt second
attempt (lines 257-270); a response without data throws
`"No visual data in response."`; any thrown error (including rate limits)
is caught and rendered as a failure indicator. -/
def resolvePlaceholder (caption : List Char) (service : Nat → ImgOutcome) :
    Nat × AnchorState :=
  match service 0 with
  | .ok d => (1, .resolvedVisual d caption)
  | .noData => (1, .failureIndicator noDataMsg)
  | .err m => (1, .failureIndicator m)
  | .safety =>
      match service 1 with
      | .ok d => (2, .resolvedVisual d caption)
      | .err m => (2, .failureIndicator m)
      | .noData => (2, .failureIndicator safetyBlockedMsg)
      | .safety => (2, .failureIndicator safetyBlockedMsg)

/-- All tokens resolved independently (`tasks = matches.map ...` followed by
`Promise.allSettled(tasks)`, lines 233-291): token `i` uses its own service
oracle `service i`. -/
def resolveAllAux (service : Nat → Nat → ImgOutcome) :
    Nat → List (List Char) → List AnchorState
  | _, [] => []
  | i, cap :: caps => (resolvePlaceholder cap (service i)).2 :: resolveAllAux service (i + 1) caps

def resolveAll (caps : List (List Char)) (service : Nat → Nat → ImgOutcome) :
    List AnchorState :=
  resolveAllAux service 0 caps

/-- Claim C3 counterexample: a token whose requests always fail with the
non-retryable content-safety reason is attempted exactly twice — the code
issues a neutral-prompt second attempt on SAFETY — contradicting "exactly
one attempt for non-retryable reasons"; and a token whose requests always
fail with a rate-limit signal (a thrown error) is attempted exactly once —
the code never retries on rate limits. -/
theorem c3_safety_retried_twice_cex :
    (resolvePlaceholder "a KTM Duke motorcycle".toList (fun _ => ImgOutcome.safety)).1 = 2 ∧
    (resolvePlaceholder "a KTM Duke motorcycle".toList
      (fun _ => ImgOutcome.err "429 rate limited".toList)).1 = 1 :=
  ⟨rfl, rfl⟩

/-- Claim C3 (amended): the attempt count for a token is 2 exactly when
the first call ends in a content-safety block (the brand-safety fallback),
and 1 in every other case — so the bound of 2 lies within the spec's 2-3
range, but retries are issued on content-safety finishes and never on
rate-limit (thrown) failures. -/
theorem c3_retry_policy (caption : List Char) (service : Nat → ImgOutcome) :
    (resolvePlaceholder caption service).1
      = if service 0 = ImgOutcome.safety then 2 else 1 := by
  rcases h0 : service 0 with d | _ | _ | m
  · simp [resolvePlaceholder, h0]
  · rcases h1 : service 1 with d | _ | _ | m <;> simp [resolvePlaceholder, h0, h1]
  · simp [resolvePlaceholder, h0]
  · simp [resolvePlaceholder, h0]

theorem resolveAllAux_length (service : Nat → Nat → ImgOutcome)
    (caps : List (List Char)) : ∀ i, (resolveAllAux service i caps).length = caps.length := by
  induction caps with
  | nil => intro i; rfl
  | cons c caps ih => intro i; simp [resolveAllAux, ih]

theorem resolvePlaceholder_settled (cap : List Char) (o : Nat → ImgOutcome) :
    (∃ d alt, (resolvePlaceholder cap o).2 = AnchorState.resolvedVisual d alt) ∨
    (∃ m, (resolvePlaceholder cap o).2 = AnchorState.failureIndicator m) := by
  rcases h0 : o 0 with d | _ | _ | m
  · exact Or.inl ⟨d, cap, by simp [resolvePlaceholder, h0]⟩
  · rcases h1 : o 1 with d | _ | _ | m
    · exact Or.inl ⟨d, cap, by simp [resolvePlaceholder, h0, h1]⟩
    · exact Or.inr ⟨safetyBlockedMsg, by simp [resolvePlaceholder, h0, h1]⟩
    · exact Or.inr ⟨safetyBlockedMsg, by simp [resolvePlaceholder, h0, h1]⟩
    · exact Or.inr ⟨m, by simp [resolvePlaceholder, h0, h1]⟩
  · exact Or.inr ⟨noDataMsg, by simp [resolvePlaceholder, h0]⟩
  · exact Or.inr ⟨m, by simp [resolvePlaceholder, h0]⟩

theorem resolveAllAux_mem_settled (service : Nat → Nat → ImgOutcome)
    (caps : List (List Char)) : ∀ i, ∀ a ∈ resolveAllAux service i caps,
      (∃ d alt, a = AnchorState.resolvedVisual d alt) ∨
      (∃ m, a = AnchorState.failureIndicator m) := by
  induction caps with
  | nil => intro i a ha; cases ha
  | cons c caps ih =>
    intro i a ha
    rcases List.mem_cons.mp ha with h | h
    · subst h; exact resolvePlaceholder_settled c (service i)
    · exact ih (i + 1) a h

theorem resolveAllAux_get (service : Nat → Nat → ImgOutcome)
    (caps : List (List Char)) : ∀ i k (hk : k < caps.length)
      (hk2 : k < (resolveAllAux service i caps).length),
      (resolveAllAux service i caps).get ⟨k, hk2⟩
        = (resolvePlaceholder (caps.get ⟨k, hk⟩) (service (i + k))).2 := by
  induction caps with
  | nil => intro i k hk _; exact absurd hk (by simp)
  | cons c caps ih =>
    intro i k hk hk2
    rcases k with _ | k
    · rfl
    · have := ih (i + 1) k (by simpa using Nat.lt_of_succ_lt_succ hk)
        (by simpa [resolveAllAux] using Nat.lt_of_succ_lt_succ hk2)
      simpa [resolveAllAux, Nat.add_assoc, Nat.add_comm 1 k] using this

/-- Claim C6: after resolution completes, every placeholder anchor is in
exactly one of the two states resolved-visual or failure-indicator (never
left loading), and the `i`-th anchor depends only on the `i`-th token's
caption and its own service outcomes — one token's permanent failure
cannot affect the others (all-settle semantics). -/
theorem c6_all_anchors_settle (caps : List (List Char)) (service : Nat → Nat → ImgOutcome) :
    (resolveAll caps service).length = caps.length ∧
    (∀ a ∈ resolveAll caps service,
      (∃ d alt, a = AnchorState.resolvedVisual d alt) ∨
      (∃ m, a = AnchorState.failureIndicator m)) ∧
    (∀ i (hi : i < caps.length) (hi2 : i < (resolveAll caps service).length),
      (resolveAll caps service).get ⟨i, hi2⟩
        = (resolvePlaceholder (caps.get ⟨i, hi⟩) (service i)).2) := by
  refine ⟨resolveAllAux_length service caps 0, resolveAllAux_mem_settled service caps 0, ?_⟩
  intro i hi hi2
  have := resolveAllAux_get service caps 0 i hi hi2
  simpa using this

def c6caps : List (List Char) := ["cat photo".toList, "dog photo".toList]

def c6svc : Nat → Nat → ImgOutcome :=
  fun i _ => if i = 0 then ImgOutcome.err "rate limited".toList
             else ImgOutcome.ok "IMG64".toList

/-- Witness for `c6_all_anchors_settle`: token 0 fails permanently with a
rate-limit error while token 1 still resolves to its visual — settled
anchors, unaffected by the sibling failure. -/
theorem c6_all_anchors_settle_witness :
    (resolveAll c6caps c6svc).length = c6caps.length ∧
    (resolveAll c6caps c6svc).get ⟨1, by decide⟩
      = (resolvePlaceholder (c6caps.get ⟨1, by decide⟩) (c6svc 1)).2 :=
  ⟨(c6_all_anchors_settle c6caps c6svc).1,
   (c6_all_anchors_settle c6caps c6svc).2.2 1 (by decide) (by decide)⟩

/- ### Readability estimator (variant 2, lines 823-848)

Real arithmetic is modelled with exact rationals; the constants 0.39,
11.8 and 15.59 become 39/100, 118/10 and 1559/100, and `Math.round`
rounds half away from zero upward (`⌊q + 1/2⌋`), as in JS for the values
arising here. -/

def isSentenceEnd (c : Char) : Bool := c = '.' || c = '!' || c = '?'

/-- Number of matches of `/[^.!?]+[.!?]+/g`: repeatedly skip characters
that cannot start a match, consume a run of non-terminators, and require
a following run of terminators. -/
def countSentencesFuel : Nat → List Char → Nat
  | 0, _ => 0
  | fuel + 1, l =>
    match l.dropWhile isSentenceEnd with
    | [] => 0
    | c :: l1 =>
      match (c :: l1).dropWhile (fun c => !isSentenceEnd c) with
      | [] => 0
      | _ :: _ => 1 + countSentencesFuel fuel
          (((c :: l1).dropWhile (fun c => !isSentenceEnd c)).dropWhile isSentenceEnd)

def countSentences (l : List Char) : Nat := countSentencesFuel l.length l

/-- `text.trim().split(/\s+/).filter(w => w.length > 0)`: the maximal
whitespace-free runs. -/
def splitWordsFuel : Nat → List Char → List (List Char)
  | 0, _ => []
  | fuel + 1, l =>
    match l.dropWhile isWsChar with
    | [] => []
    | c :: l1 =>
      (c :: l1).takeWhile (fun c => !isWsChar c)
        :: splitWordsFuel fuel ((c :: l1).dropWhile (fun c => !isWsChar c))

def splitWords (l : List Char) : List (List Char) := splitWordsFuel l.length l

def isVowelY (c : Char) : Bool :=
  c = 'a' || c = 'e' || c = 'i' || c = 'o' || c = 'u' || c = 'y'

/-- Number of matches of `/[aeiouy]+/g`: the maximal vowel runs. -/
def vowelRunsFuel : Nat → List Char → Nat
  | 0, _ => 0
  | fuel + 1, l =>
    match l.dropWhile (fun c => !isVowelY c) with
    | [] => 0
    | c :: l1 => 1 + vowelRunsFuel fuel ((c :: l1).dropWhile isVowelY)

def vowelRuns (l : List Char) : Nat := vowelRunsFuel l.length l

def endsWithE (w : List Char) : Bool :=
  match w.reverse with
  | 'e' :: _ => true
  | _ => false

def endsWithLe (w : List Char) : Bool :=
  match w.reverse with
  | 'e' :: 'l' :: _ => true
  | _ => false

/-- `countSyllables` (variant 2, lines 823-833). -/
def countSyllables (word : List Char) : Nat :=
  if word = [] then 0
  else
    let w := (word.map Char.toLower).filter (fun c => 'a' ≤ c && c ≤ 'z')
    if w.length ≤ 3 then 1
    else
      let count := vowelRuns w
      let count2 :=
        if endsWithE w && !endsWithLe w && w.dropLast.any isVowelY then count - 1 else count
      max 1 count2

def jsRound (q : ℚ) : ℤ := ⌊q + 1 / 2⌋

/-- `calculateReadability` (variant 2, lines 835-848): returns 0 for
empty/near-empty text, otherwise the rounded Flesch-Kincaid style grade
`0.39·(words/sentences) + 11.8·(syllables/words) − 15.59`.  Sentence
matching runs over the raw text, word splitting over the trimmed text. -/
def calculateReadability (text : List Char) : ℚ :=
  if text = [] ∨ (jsTrim text).length < 20 then 0
  else
    let words := splitWords (jsTrim text)
    let sentences := countSentences text
    let sentenceCount := if sentences > 0 then sentences else 1
    if words.length < 10 then 0
    else
      let grade : ℚ := (39 / 100 : ℚ) * ((words.length : ℚ) / (sentenceCount : ℚ))
        + (118 / 10 : ℚ) * (((words.map countSyllables).sum : ℚ) / (words.length : ℚ))
        - (1559 / 100 : ℚ)
      ((jsRound (grade * 10) : ℚ) / 10)

/-- A text of ten one-syllable one-word sentences, long enough to pass
the near-empty guards of `calculateReadability`. -/
def c7text : List Char := "Go. Go. Go. Go. Go. Go. Go. Go. Go. Go.".toList

/-- Claim C7 counterexample: the readability estimator is not
non-negative.  Ten one-syllable one-word sentences give grade
`0.39·1 + 11.8·1 − 15.59 = −3.4 < 0`; the function applies no clamp (the
UI separately masks non-positive scores as `N/A`). -/
theorem c7_negative_readability_cex :
    calculateReadability c7text = -17 / 5 ∧ calculateReadability c7text < 0 := by
  have hval : calculateReadability c7text = -17 / 5 := by
    have hne : ¬(c7text = [] ∨ (jsTrim c7text).length < 20) := by decide
    have hwc : ¬((splitWords (jsTrim c7text)).length < 10) := by decide
    have hw : (splitWords (jsTrim c7text)).length = 10 := by decide
    have hs : countSentences c7text = 10 := by decide
    have hsyl : ((splitWords (jsTrim c7text)).map countSyllables).sum = 10 := by decide
    simp only [calculateReadability]
    rw [if_neg hne, if_neg hwc, hw, hs, hsyl]
    norm_num [jsRound]
  exact ⟨hval, by rw [hval]; norm_num⟩

/-- Claim C7 (amended): the estimator has a defined floor — it returns
exactly 0 for empty or near-empty text (trimmed length below 20
characters, or fewer than 10 words) — but it is not non-negative on all
inputs (see the counterexample); degenerate short-sentence texts produce
negative grades, which the caller renders as `N/A`. -/
theorem c7_readability_floor (text : List Char)
    (h : (jsTrim text).length < 20 ∨ (splitWords (jsTrim text)).length < 10) :
    calculateReadability text = 0 := by
  by_cases h1 : text = [] ∨ (jsTrim text).length < 20
  · simp only [calculateReadability]
    rw [if_pos h1]
  · have h2 : (splitWords (jsTrim text)).length < 10 := by tauto
    simp only [calculateReadability]
    rw [if_neg h1, if_pos h2]

/-- Witness for `c7_readability_floor`: the empty text scores 0. -/
theorem c7_readability_floor_witness : calculateReadability "".toList = 0 :=
  c7_readability_floor "".toList (Or.inl (by decide))

/- ### SEO quality score (variant 1, lines 318-326)

`calculateSeoScore` reads only the `primary-keyword` field of the form
data; it is passed here as `kw`.  Criteria: a top-level heading in the
markup (+20), the keyword in the body text (+30), an embedded image
(+20), a hyperlink (+30); the total is clamped to 100. -/

def calculateSeoScore (text html kw : List Char) : Nat :=
  min 100 ((if containsSub (html.map Char.toLower) "<h1".toList then 20 else 0)
    + (if containsSub (text.map Char.toLower) (kw.map Char.toLower) then 30 else 0)
    + (if containsSub html "<img".toList then 20 else 0)
    + (if containsSub html "href=\"http".toList then 30 else 0))

/-- The heading criterion of `calculateSeoScore`. -/
def flagH1 (html : List Char) : Bool := containsSub (html.map Char.toLower) "<h1".toList

/-- The keyword-in-body criterion of `calculateSeoScore`. -/
def flagKw (text kw : List Char) : Bool :=
  containsSub (text.map Char.toLower) (kw.map Char.toLower)

/-- The embedded-visual criterion of `calculateSeoScore`. -/
def flagImg (html : List Char) : Bool := containsSub html "<img".toList

/-- The link-presence criterion of `calculateSeoScore`. -/
def flagLink (html : List Char) : Bool := containsSub html "href=\"http".toList

/-- The score as a function of the four criterion flags alone. -/
def seoPoints (b1 b2 b3 b4 : Bool) : Nat :=
  min 100 ((if b1 then 20 else 0) + (if b2 then 30 else 0) + (if b3 then 20 else 0)
    + (if b4 then 30 else 0))

theorem calculateSeoScore_eq_points (text html kw : List Char) :
    calculateSeoScore text html kw
      = seoPoints (flagH1 html) (flagKw text kw) (flagImg html) (flagLink html) := rfl

theorem seoPoints_mono : ∀ b1 b2 b3 b4 c1 c2 c3 c4 : Bool,
    (b1 = true → c1 = true) → (b2 = true → c2 = true) → (b3 = true → c3 = true) →
    (b4 = true → c4 = true) → seoPoints b1 b2 b3 b4 ≤ seoPoints c1 c2 c3 c4 := by decide

theorem seoPoints_le_100 : ∀ b1 b2 b3 b4 : Bool, seoPoints b1 b2 b3 b4 ≤ 100 := by decide

/-- Claim C8: the quality score is a natural number bounded by 100 (hence
an integer in [0,100]), and it is monotonically non-decreasing when any
scoring criterion (top-level heading, keyword in body, embedded visual,
link presence) goes from unsatisfied to satisfied while the others do not
regress. -/
theorem c8_seo_score_bounds_mono (t h kw t2 h2 kw2 : List Char)
    (m1 : flagH1 h = true → flagH1 h2 = true)
    (m2 : flagKw t kw = true → flagKw t2 kw2 = true)
    (m3 : flagImg h = true → flagImg h2 = true)
    (m4 : flagLink h = true → flagLink h2 = true) :
    calculateSeoScore t h kw ≤ calculateSeoScore t2 h2 kw2 ∧
    calculateSeoScore t h kw ≤ 100 := by
  rw [calculateSeoScore_eq_points, calculateSeoScore_eq_points]
  exact ⟨seoPoints_mono _ _ _ _ _ _ _ _ m1 m2 m3 m4, seoPoints_le_100 _ _ _ _⟩

/-- Witness for `c8_seo_score_bounds_mono`: satisfying the heading,
keyword, visual and link criteria never lowers the score, and the score
stays within the bound. -/
theorem c8_seo_score_witness :
    calculateSeoScore "no keyword here".toList "<p>x</p>".toList "solar".toList
      ≤ calculateSeoScore "all about solar".toList
        "<h1>Solar</h1><img><a href=\"http://e.com\">l</a>".toList "solar".toList ∧
    calculateSeoScore "no keyword here".toList "<p>x</p>".toList "solar".toList ≤ 100 :=
  c8_seo_score_bounds_mono "no keyword here".toList "<p>x</p>".toList "solar".toList
    "all about solar".toList "<h1>Solar</h1><img><a href=\"http://e.com\">l</a>".toList
    "solar".toList (by decide) (by decide) (by decide) (by decide)

/- ### Prompt compiler (variant 1, lines 379-415)

The form fields read by `constructPrompt`; `get(id)` trims each value and
defaults a missing value to the empty string, modelled by applying
`jsTrim` to raw field values.  `add-external-links === 'on'` is a
boolean. -/

structure PromptForm where
  primaryKeyword : List Char
  countrySlang : List Char
  addExternalLinks : Bool
  externalLinksCount : List Char
  internalSitemap : List Char
  readerProblem : List Char
  uniqueInsights : List Char
  authorBio : List Char
  secondaryKeywords : List Char
  lsiKeywords : List Char
  multimediaCount : List Char

/-- The compiled instruction string of variant 1.  JS template-literal
conditionals `${x ? a : b}` test string truthiness, i.e. non-emptiness of
the trimmed value; `get('external-links-count') || "3"` defaults the
empty string to `"3"`. -/
def constructPrompt (f : PromptForm) : List Char :=
  let kw := jsTrim f.primaryKeyword
  let slang := jsTrim f.countrySlang
  let linkCount := if jsTrim f.externalLinksCount = [] then "3".toList
                   else jsTrim f.externalLinksCount
  let sitemap := jsTrim f.internalSitemap
  "\n      You are an Elite SEO Strategist and Content Creator. \n      Deliver your response in three distinct blocks:\n      1. %%JSON-LD-START%% [Schema.org Article JSON] %%JSON-LD-END%%\n      2. %%META-START%% [Meta Description (155 chars max)] %%META-END%%\n      3. [Full Article in Markdown]\n\n      LINKING REQUIREMENTS (MANDATORY):\n      ".toList
  ++ (if f.addExternalLinks then
        "- You MUST include exactly ".toList ++ linkCount
          ++ " external hyperlinks using high-authority industry sources (e.g. Wikipedia, New York Times, Forbes, or relevant industry leaders). \n      - FORMAT: [Anchor Text](URL)\n      - Integrate them naturally into the body text.".toList
      else "- No external links required.".toList)
  ++ "\n      \n      ".toList
  ++ (if sitemap = [] then []
      else "- INTERNAL LINKING: Use the following URLs to link related concepts within the article: ".toList
        ++ sitemap)
  ++ "\n\n      CONTENT STRATEGY:\n      - Main Topic: \"".toList ++ kw
  ++ "\"\n      ".toList
  ++ (if slang = [] then []
      else "- Tone Override: Use natural \"".toList ++ slang
        ++ "\" slang and idioms seamlessly.".toList)
  ++ "\n      - Reader Problem: ".toList ++ jsTrim f.readerProblem
  ++ "\n      - Expertise (E-E-A-T): ".toList ++ jsTrim f.uniqueInsights
  ++ "\n      - Author Bio: ".toList ++ jsTrim f.authorBio
  ++ "\n\n      OPTIMIZATION:\n      - Bold these keywords: ".toList
  ++ jsTrim f.secondaryKeywords ++ ", ".toList ++ jsTrim f.lsiKeywords
  ++ ".\n      - Use H1, H2, and H3 headers.\n      - Place exactly ".toList
  ++ jsTrim f.multimediaCount
  ++ " visual placeholders: [Featured Image: ".toList ++ kw
  ++ "] or [Image: descriptive scene].\n      \n      Begin generation now.\n    ".toList

/-- The placeholder directive: the instruction to place bracketed
`[Kind: caption]` markers. -/
def placeholderDirective : List Char := " visual placeholders: [Featured Image: ".toList

theorem containsSub_append_self (x t : List Char) : containsSub (x ++ t) t = true := by
  have h := containsSub_of_middle x t []
  simpa using h

theorem containsSub_append_right {l t : List Char} (y : List Char)
    (h : containsSub l t = true) : containsSub (l ++ y) t = true := by
  rw [containsSub] at h
  cases hidx : idxOfSub l t with
  | none => rw [hidx] at h; cases h
  | some i =>
    have hocc := (idxOfSub_some_iff.mp hidx).1
    have hocc' : startsWith ((l ++ y).drop i) t = true := by
      rw [List.drop_append_eq_append_drop]
      exact startsWith_append_right _ hocc
    rw [containsSub]
    cases hidx2 : idxOfSub (l ++ y) t with
    | some j => rfl
    | none =>
      have := idxOfSub_none_iff.mp hidx2 i
      rw [hocc'] at this; cases this

theorem constructPrompt_has_directive (f : PromptForm) :
    containsSub (constructPrompt f) placeholderDirective = true := by
  simp only [constructPrompt, placeholderDirective]
  apply containsSub_append_right
  apply containsSub_append_right
  exact containsSub_append_self _ _

/-- A configuration requesting zero visual placeholders. -/
def c4zeroForm : PromptForm :=
  ⟨"solar panels".toList, [], false, [], [], [], [], [], [], [], "0".toList⟩

set_option maxRecDepth 4000 in
/-- Claim C4 counterexample: with `multimedia-count = "0"` the compiled
prompt still contains the placeholder directive — the multimedia line is
unconditional, so the prompt reads "Place exactly 0 visual placeholders:
[Featured Image: ...]" instead of omitting the directive. -/
theorem c4_zero_count_directive_cex :
    jsTrim c4zeroForm.multimediaCount = "0".toList ∧
    containsSub (constructPrompt c4zeroForm) placeholderDirective = true ∧
    containsSub (constructPrompt c4zeroForm)
      "- Place exactly 0 visual placeholders: [Featured Image: solar panels]".toList = true :=
  ⟨by decide, constructPrompt_has_directive c4zeroForm, by decide⟩

/-- Claim C4 (amended): the placeholder directive is never omitted —
for every configuration, including one whose placeholder count is zero,
the compiled prompt contains the instruction to place bracketed
`[Featured Image: ...]` markers, with the configured count interpolated
into the text. -/
theorem c4_directive_always_present (f : PromptForm) :
    containsSub (constructPrompt f) placeholderDirective = true :=
  constructPrompt_has_directive f

end SeoEngine
